import Mathlib

/-!
# Image selection by environment mappings (`image/env_selector.go`)

A shallow embedding of `EnvSelector`: the lookup-table builder
(`buildLookup`, `modifyBuildGroup`), the candidate-key generator
(`buildCandidateKeys`) and the selector (`Select`).

Modelling conventions.

* A Go `string` is a Lean `String`, i.e. a sequence of Unicode scalar values.
  Go strings are byte sequences; on well-formed UTF-8 the byte-wise
  operations used by the source (`==`, `+`, `strings.HasPrefix`,
  `strings.Contains`, `strings.Replace` with a non-empty well-formed `old`)
  agree with the same operations rune by rune, because UTF-8 is
  self-synchronising.  Byte strings that are not well-formed UTF-8 are outside
  the model.
* `strings.ToLower` maps every rune through `unicode.ToLower`.  Its action on
  ASCII is fixed (`A`..`Z` go to `a`..`z`); its action on the other runes is
  given by the Unicode case tables of the Go standard library, which are taken
  as a parameter `unicodeLower : Char → Char`.
* A Go `map[string]string` is a finite association list with pairwise distinct
  keys as long as it is only built with `Table.set`; `Table.get?` is the
  comma-ok lookup `v, ok := m[k]`.
* The closure passed to `Each` assigns to the captured variable `lookup`; here
  the closure receives and returns the table.
-/

namespace Image

/-! ## Go standard library: `strings` -/

namespace Strings

/-- Occurrence test on rune lists: `sub` occurs in `s` as a contiguous block. -/
def containsL (sub : List Char) : List Char → Bool
  | [] => sub.isPrefixOf []
  | c :: t => sub.isPrefixOf (c :: t) || containsL sub t

/-- Go `strings.Contains(s, substr)`: reports whether `substr` is within `s`. -/
def Contains (s substr : String) : Bool :=
  containsL substr.data s.data

/-- Go `strings.HasPrefix(s, prefix)`. -/
def HasPrefix (s pre : String) : Bool :=
  pre.data.isPrefixOf s.data

/-- Replacement loop of `strings.Replace` for a non-empty `old`: scan left to
right, `limit` replacements remain, `skip` runes of an occurrence that has just
been replaced remain to be dropped. -/
def replaceL (old new : List Char) : List Char → Nat → Nat → List Char
  | [], _, _ => []
  | _ :: t, limit, skip + 1 => replaceL old new t limit skip
  | c :: t, 0, 0 => c :: t
  | c :: t, limit + 1, 0 =>
    if old.isPrefixOf (c :: t) then new ++ replaceL old new t limit (old.length - 1)
    else c :: replaceL old new t (limit + 1) 0

/-- Replacement loop of `strings.Replace` for the empty `old`: `new` is put at
the beginning and after each rune, `limit` times at most. -/
def replaceEmptyL (new : List Char) : List Char → Nat → List Char
  | s, 0 => s
  | [], _ + 1 => new
  | c :: t, limit + 1 => new ++ c :: replaceEmptyL new t limit

/-- Go `strings.Replace(s, old, new, n)`: a copy of `s` with the first `n`
non-overlapping instances of `old` replaced by `new`; no limit when `n < 0`.
A string of `k` runes has at most `k + 1` instances, which stands for "no
limit". -/
def Replace (s old new : String) (n : Int) : String :=
  if old = new ∨ n = 0 then s
  else
    let limit : Nat := if n < 0 then s.data.length + 1 else n.toNat
    if old.data = [] then ⟨replaceEmptyL new.data s.data limit⟩
    else ⟨replaceL old.data new.data s.data limit 0⟩

/-- The ASCII upper-case letters `A`..`Z`. -/
def isUpperASCII (c : Char) : Bool :=
  decide (65 ≤ c.toNat) && decide (c.toNat ≤ 90)

/-- Go `unicode.ToLower(r)`: below `0x80` the letters `A`..`Z` are shifted by
`'a' - 'A'` and every other rune is kept; from `0x80` on the Unicode case
tables decide. -/
def toLowerRune (unicodeLower : Char → Char) (c : Char) : Char :=
  if c.toNat < 128 then
    if isUpperASCII c then Char.ofNat (c.toNat + 32) else c
  else unicodeLower c

/-- Go `strings.ToLower(s)`: every rune mapped to its lower case. -/
def ToLower (unicodeLower : Char → Char) (s : String) : String :=
  ⟨s.data.map (toLowerRune unicodeLower)⟩

/-- Go `strings.Join(elems, sep)`. -/
def Join : List String → String → String
  | [], _ => ""
  | [a], _ => a
  | a :: b :: t, sep => a ++ sep ++ Join (b :: t) sep

end Strings

/-! ## Go maps -/

/-- A `map[string]string`. -/
abbrev Table := List (String × String)

/-- The comma-ok lookup `v, ok := m[k]`: `some v` when `ok`, `none` otherwise. -/
def Table.get? (m : Table) (k : String) : Option String :=
  match m with
  | [] => none
  | (k', v) :: rest => if k' = k then some v else Table.get? rest k

/-- The assignment `m[k] = v`: any prior entry for `k` is overwritten. -/
def Table.set (m : Table) (k v : String) : Table :=
  (k, v) :: m.filter (fun e => decide (e.1 ≠ k))

/-- The test `k` is a key of `m`. -/
def Table.hasKey (m : Table) (k : String) : Bool :=
  (m.get? k).isSome

/-! ## The data model -/

/-- Modelled from the spec: `config.ProviderConfig` (package `config` is not
part of the sources at hand).  The spec's ConfigSource is "an external
collaborator exposing: for each key/value pair configured for this selector,
invoke a callback"; it is represented by the pairs in the order in which
`Each` yields them. -/
structure ProviderConfig where
  entries : List (String × String)
  deriving DecidableEq, Repr

/-- Modelled from the spec: `(*config.ProviderConfig).Each`, which invokes
the callback on every configured pair in enumeration order.  The callback
threads the state it updates. -/
def ProviderConfig.Each {σ : Type} (pc : ProviderConfig) (f : String → String → σ → σ)
    (init : σ) : σ :=
  pc.entries.foldl (fun st kv => f kv.1 kv.2 st) init

/-- The build request's selection criteria (`image.Params`, the fields read by
the selector). -/
structure Params where
  Dist : String
  Group : String
  OS : String
  deriving DecidableEq, Repr

/-- Go `error` values; `none` in `Option GoError` is the `nil` error. -/
abbrev GoError := String

/-- `EnvSelector`: environment-based mappings. -/
structure EnvSelector where
  c : ProviderConfig
  lookup : Table
  deriving DecidableEq, Repr

/-! ## The operations -/

open Strings

/-- `modifyBuildGroup`: the find-and-replace scheme for groups with a `-`. -/
def modifyBuildGroup (group : String) : String :=
  if Contains group "group_power_" then
    Replace group "group_power_" "group_power-" 1
  else
    group

/-- The key under which `buildLookup` stores the value of `key`. -/
def lookupKey (unicodeLower : Char → Char) (key : String) : String :=
  modifyBuildGroup (ToLower unicodeLower (Replace key "IMAGE_" "" (-1)))

/-- `(*EnvSelector).buildLookup`. -/
def EnvSelector.buildLookup (unicodeLower : Char → Char) (es : EnvSelector) : EnvSelector :=
  let lookup : Table := []
  let lookup := es.c.Each (fun key value lookup =>
    if HasPrefix key "IMAGE_" then
      Table.set lookup
        (modifyBuildGroup (ToLower unicodeLower (Replace key "IMAGE_" "" (-1)))) value
    else lookup) lookup
  { es with lookup := lookup }

/-- `NewEnvSelector`: builds a new `EnvSelector` from the given config; the
error of the result is `nil`. -/
def NewEnvSelector (unicodeLower : Char → Char) (c : ProviderConfig) :
    EnvSelector × Option GoError :=
  let es : EnvSelector := { c := c, lookup := [] }
  let es := es.buildLookup unicodeLower
  (es, none)

/-- `(*EnvSelector).buildCandidateKeys`. -/
def EnvSelector.buildCandidateKeys (_es : EnvSelector) (params : Params) : List String :=
  let fullKey : List String := []
  let candidateKeys : List String := []
  let hasDist := params.Dist != ""
  let hasGroup := params.Group != ""
  let hasOS := params.OS != ""
  let candidateKeys :=
    if hasDist && hasGroup then
      (candidateKeys ++ ["dist_" ++ params.Dist ++ "_group_" ++ params.Group])
        ++ [params.Dist ++ "_" ++ params.Group]
    else candidateKeys
  let candidateKeys :=
    if hasDist then (candidateKeys ++ ["dist_" ++ params.Dist]) ++ [params.Dist]
    else candidateKeys
  let candidateKeys :=
    if hasGroup then (candidateKeys ++ ["group_" ++ params.Group]) ++ [params.Group]
    else candidateKeys
  let candidateKeys :=
    if hasOS then (candidateKeys ++ ["os_" ++ params.OS]) ++ [params.OS]
    else candidateKeys
  [Join fullKey "_"] ++ candidateKeys

/-- The `for ... range` loop of `Select`: `imageName` is the value held when
the loop is entered for the remaining `keys`; the result is the value held
when the loop is left (by exhaustion or by `break`). -/
def selectScan (lookup : Table) : List String → String → String
  | [], imageName => imageName
  | key :: rest, imageName =>
    if key = "" then selectScan lookup rest imageName
    else
      match lookup.get? key with
      | some s => s
      | none => selectScan lookup rest imageName

/-- `(*EnvSelector).Select` (the context argument is not read). -/
def EnvSelector.Select (es : EnvSelector) (params : Params) : String × Option GoError :=
  let imageName := "default"
  let imageName := selectScan es.lookup (es.buildCandidateKeys params) imageName
  -- check for one level of indirection
  match es.lookup.get? imageName with
  | some selected => (selected, none)
  | none => (imageName, none)

/-! ## Definitions that follow the wording of the specification -/

/-- One hop of alias indirection, in the spec's words: `resolve(n) = T[n]` if
`n` is a key of `T`, else `n`. -/
def specResolve (T : Table) (n : String) : String :=
  match T.get? n with
  | some w => w
  | none => n

/-- In the spec's words: the candidate `c` at index `i` of `cands` is the
first (lowest-index) non-empty candidate that is a key of `T`, and `T[c] = v`. -/
def FirstMatch (T : Table) (cands : List String) (i : Nat) (c v : String) : Prop :=
  cands[i]? = some c ∧ c ≠ "" ∧ T.get? c = some v ∧
    ∀ c' ∈ cands.take i, c' = "" ∨ T.get? c' = none

/-- In the spec's words: no non-empty candidate of `cands` is a key of `T`. -/
def NoMatch (T : Table) (cands : List String) : Prop :=
  ∀ c ∈ cands, c = "" ∨ T.get? c = none

/-- Go's index expression `m[k]` used as a value: the stored value, or the
zero value `""` when `k` is not a key. -/
def Table.index (m : Table) (k : String) : String :=
  (m.get? k).getD ""

/-- Selection in the spec's words: `resolve(n)` where `n = T[c]` for the first
non-empty candidate `c` that is a key of `T`, or `n = "default"` if there is no
such candidate. -/
def specSelect (T : Table) (cands : List String) : String :=
  specResolve T
    (match cands.find? (fun c => decide (c ≠ "") && T.hasKey c) with
     | some c => T.index c
     | none => "default")

/-- Prefix stripping in the spec's words ("strip the prefix"): the leading
`pre` is removed from `key` when `key` begins with it, and nothing else. -/
def specStripPrefix (key pre : String) : String :=
  if HasPrefix key pre then ⟨key.data.drop pre.data.length⟩ else key

/-- Key normalization in the spec's words: strip the prefix, lowercase the
remainder, apply the group-delimiter normalization. -/
def specLookupKey (unicodeLower : Char → Char) (key : String) : String :=
  modifyBuildGroup (ToLower unicodeLower (specStripPrefix key "IMAGE_"))

/-! ## Lemmas on the scan -/

theorem selectScan_of_noMatch (T : Table) (d : String) :
    ∀ cands : List String, NoMatch T cands → selectScan T cands d = d := by
  intro cands
  induction cands with
  | nil => intro _; rfl
  | cons k rest ih =>
    intro h
    have hk := h k (List.mem_cons_self _ _)
    have hrest : NoMatch T rest := fun c hc => h c (List.mem_cons_of_mem _ hc)
    by_cases hke : k = ""
    · simp [selectScan, hke, ih hrest]
    · have hnone : T.get? k = none := by
        cases hk with
        | inl h0 => exact absurd h0 hke
        | inr h1 => exact h1
      simp [selectScan, hke, hnone, ih hrest]

theorem selectScan_of_firstMatch (T : Table) (d : String) :
    ∀ (cands : List String) (i : Nat) (c v : String),
      FirstMatch T cands i c v → selectScan T cands d = v := by
  intro cands
  induction cands with
  | nil =>
    intro i c v h
    simp [FirstMatch] at h
  | cons k rest ih =>
    intro i c v h
    obtain ⟨hget, hne, hv, hbefore⟩ := h
    cases i with
    | zero =>
      simp at hget
      subst hget
      simp [selectScan, hne, hv]
    | succ j =>
      have hk : k = "" ∨ T.get? k = none := hbefore k (by simp)
      have hrest : FirstMatch T rest j c v := by
        refine ⟨by simpa using hget, hne, hv, ?_⟩
        intro c' hc'
        exact hbefore c' (by simp [List.take_succ_cons, hc'])
      by_cases hke : k = ""
      · simp [selectScan, hke, ih j c v hrest]
      · have hnone : T.get? k = none := by
          cases hk with
          | inl h0 => exact absurd h0 hke
          | inr h1 => exact h1
        simp [selectScan, hke, hnone, ih j c v hrest]

theorem firstMatch_or_noMatch (T : Table) :
    ∀ cands : List String, (∃ i c v, FirstMatch T cands i c v) ∨ NoMatch T cands := by
  intro cands
  induction cands with
  | nil => right; intro c hc; simp at hc
  | cons k rest ih =>
    by_cases hke : k = ""
    · cases ih with
      | inl h =>
        obtain ⟨i, c, v, hget, hne, hv, hb⟩ := h
        left
        refine ⟨i + 1, c, v, by simpa using hget, hne, hv, ?_⟩
        intro c' hc'
        simp [List.take_succ_cons] at hc'
        cases hc' with
        | inl h0 => left; rw [h0, hke]
        | inr h1 => exact hb c' h1
      | inr h =>
        right
        intro c hc
        simp at hc
        cases hc with
        | inl h0 => left; rw [h0, hke]
        | inr h1 => exact h c h1
    · cases hT : T.get? k with
      | some v =>
        left
        exact ⟨0, k, v, by simp, hke, hT, by simp⟩
      | none =>
        cases ih with
        | inl h =>
          obtain ⟨i, c, v, hget, hne, hv, hb⟩ := h
          left
          refine ⟨i + 1, c, v, by simpa using hget, hne, hv, ?_⟩
          intro c' hc'
          simp [List.take_succ_cons] at hc'
          cases hc' with
          | inl h0 => right; rw [h0, hT]
          | inr h1 => exact hb c' h1
        | inr h =>
          right
          intro c hc
          simp at hc
          cases hc with
          | inl h0 => right; rw [h0, hT]
          | inr h1 => exact h c h1

theorem select_fst (es : EnvSelector) (p : Params) :
    (es.Select p).1 =
      specResolve es.lookup (selectScan es.lookup (es.buildCandidateKeys p) "default") := by
  cases h : es.lookup.get? (selectScan es.lookup (es.buildCandidateKeys p) "default") <;>
    simp [EnvSelector.Select, specResolve, h]

theorem candidates_eq (es : EnvSelector) (p : Params) :
    es.buildCandidateKeys p =
      [""] ++ (if p.Dist ≠ "" ∧ p.Group ≠ "" then
                ["dist_" ++ p.Dist ++ "_group_" ++ p.Group, p.Dist ++ "_" ++ p.Group] else [])
        ++ (if p.Dist ≠ "" then ["dist_" ++ p.Dist, p.Dist] else [])
        ++ (if p.Group ≠ "" then ["group_" ++ p.Group, p.Group] else [])
        ++ (if p.OS ≠ "" then ["os_" ++ p.OS, p.OS] else []) := by
  unfold EnvSelector.buildCandidateKeys
  by_cases hd : p.Dist = "" <;> by_cases hg : p.Group = "" <;> by_cases ho : p.OS = "" <;>
    simp [hd, hg, ho, Join]

/-! ## Candidate keys -/

/-- C1: for every `Params p` the candidate list is exactly the empty string,
then the two combined keys when `Dist` and `Group` are both non-empty, then the
two `Dist` keys, the two `Group` keys and the two `OS` keys, each pair present
only when its field is non-empty; index 0 is the empty string and the list is
the same for every selector, whatever its lookup table. -/
theorem buildCandidateKeys_exact (es : EnvSelector) (p : Params) :
    es.buildCandidateKeys p =
        [""] ++ (if p.Dist ≠ "" ∧ p.Group ≠ "" then
                  ["dist_" ++ p.Dist ++ "_group_" ++ p.Group, p.Dist ++ "_" ++ p.Group] else [])
          ++ (if p.Dist ≠ "" then ["dist_" ++ p.Dist, p.Dist] else [])
          ++ (if p.Group ≠ "" then ["group_" ++ p.Group, p.Group] else [])
          ++ (if p.OS ≠ "" then ["os_" ++ p.OS, p.OS] else [])
      ∧ (es.buildCandidateKeys p)[0]? = some ""
      ∧ ∀ es' : EnvSelector, es'.buildCandidateKeys p = es.buildCandidateKeys p := by
  refine ⟨candidates_eq es p, ?_, ?_⟩
  · rw [candidates_eq]; simp
  · intro es'
    rw [candidates_eq es', candidates_eq es]

/-! ## Selection -/

theorem selectScan_eq_find (T : Table) (d : String) :
    ∀ cands : List String,
      selectScan T cands d =
        (match cands.find? (fun c => decide (c ≠ "") && T.hasKey c) with
         | some c => T.index c
         | none => d) := by
  intro cands
  induction cands with
  | nil => rfl
  | cons k rest ih =>
    by_cases hke : k = ""
    · simp [selectScan, hke, ih, List.find?_cons]
    · cases hT : T.get? k with
      | some v => simp [selectScan, hke, hT, List.find?_cons, Table.hasKey, Table.index]
      | none => simp [selectScan, hke, hT, ih, List.find?_cons, Table.hasKey]

theorem append_ne_empty (a b : String) (h : a ≠ "") : a ++ b ≠ "" := by
  intro hab
  apply h
  have h1 : (a ++ b).data = [] := by rw [hab]
  rw [String.data_append] at h1
  have h2 : a.data = [] := (List.append_eq_nil.mp h1).1
  exact String.ext h2

/-- C2: for every lookup table `T` and every `Params p`, `Select(p)` equals
`resolve(n)` where `n = T[c]` for the first non-empty candidate `c` of
`buildCandidateKeys(p)` that is a key of `T`, or `n = "default"` when no
candidate matches, and `resolve(n) = T[n]` if `n` is a key of `T`, else `n`;
stated both as an equation with the spec-worded selection and by cases on the
index of the first match. -/
theorem select_eq_spec (es : EnvSelector) (p : Params) :
    (es.Select p).1 = specSelect es.lookup (es.buildCandidateKeys p)
      ∧ ((∃ i c v, FirstMatch es.lookup (es.buildCandidateKeys p) i c v
              ∧ (es.Select p).1 = specResolve es.lookup v)
          ∨ (NoMatch es.lookup (es.buildCandidateKeys p)
              ∧ (es.Select p).1 = specResolve es.lookup "default")) := by
  refine ⟨?_, ?_⟩
  · rw [select_fst, selectScan_eq_find]
    rfl
  · cases firstMatch_or_noMatch es.lookup (es.buildCandidateKeys p) with
    | inl h =>
      obtain ⟨i, c, v, hfm⟩ := h
      left
      refine ⟨i, c, v, hfm, ?_⟩
      rw [select_fst, selectScan_of_firstMatch _ _ _ i c v hfm]
    | inr h =>
      right
      refine ⟨h, ?_⟩
      rw [select_fst, selectScan_of_noMatch _ _ _ h]

/-- C3: most specific match wins.  With non-empty `Dist` and `Group` (any
`OS`), if `"dist_" + Dist + "_group_" + Group` is a key of the table with value
`v`, then `Select` returns `T[v]` if `v` is a key and `v` otherwise, whatever
else the table holds. -/
theorem select_most_specific (es : EnvSelector) (p : Params) (v : String)
    (hd : p.Dist ≠ "") (hg : p.Group ≠ "")
    (hv : es.lookup.get? ("dist_" ++ p.Dist ++ "_group_" ++ p.Group) = some v) :
    (es.Select p).1 = (match es.lookup.get? v with
                       | some w => w
                       | none => v) := by
  have hne : "dist_" ++ p.Dist ++ "_group_" ++ p.Group ≠ "" :=
    append_ne_empty _ _ (append_ne_empty _ _ (append_ne_empty _ _ (by decide)))
  have hscan : selectScan es.lookup (es.buildCandidateKeys p) "default" = v := by
    rw [candidates_eq]
    simp [hd, hg, selectScan, hne, hv]
  rw [select_fst, hscan]
  rfl

/-- Witness of C3: the table `{"dist_trusty_group_foo": "imgA", "trusty": "imgB"}`
and `Params{Dist: "trusty", Group: "foo"}` give `"imgA"`. -/
theorem select_most_specific_witness :
    (EnvSelector.Select ⟨⟨[]⟩, [("dist_trusty_group_foo", "imgA"), ("trusty", "imgB")]⟩
        ⟨"trusty", "foo", ""⟩).1 = "imgA" :=
  (select_most_specific ⟨⟨[]⟩, [("dist_trusty_group_foo", "imgA"), ("trusty", "imgB")]⟩
      ⟨"trusty", "foo", ""⟩ "imgA" (by decide) (by decide) (by decide)).trans (by decide)

/-- C4: alias indirection is exactly one hop.  If the first matching candidate
maps to `v` and `v` is a key of the table with `T[v] = w`, then `Select`
returns `w`; in particular it does not return `T[w]` when `w` is itself a key
mapping to a different value. -/
theorem select_one_hop (es : EnvSelector) (p : Params) (i : Nat) (c v w : String)
    (hfm : FirstMatch es.lookup (es.buildCandidateKeys p) i c v)
    (hw : es.lookup.get? v = some w) :
    (es.Select p).1 = w
      ∧ ∀ w', es.lookup.get? w = some w' → w' ≠ w → (es.Select p).1 ≠ w' := by
  have hsel : (es.Select p).1 = w := by
    rw [select_fst, selectScan_of_firstMatch _ _ _ i c v hfm]
    simp [specResolve, hw]
  refine ⟨hsel, ?_⟩
  intro w' _ hne
  rw [hsel]
  exact fun h => hne h.symm

/-- Witness of C4: `{"imgAlias": "imgReal", "group_bar": "imgAlias"}` with
`Params{Group: "bar"}` gives `"imgReal"`, and
`{"group_bar": "imgAlias", "imgAlias": "imgChain2", "imgChain2": "imgChain3"}`
with the same `Params` gives `"imgChain2"`, not `"imgChain3"`. -/
theorem select_one_hop_witness :
    (EnvSelector.Select ⟨⟨[]⟩, [("imgAlias", "imgReal"), ("group_bar", "imgAlias")]⟩
        ⟨"", "bar", ""⟩).1 = "imgReal"
      ∧ (EnvSelector.Select
          ⟨⟨[]⟩, [("group_bar", "imgAlias"), ("imgAlias", "imgChain2"),
                  ("imgChain2", "imgChain3")]⟩ ⟨"", "bar", ""⟩).1 = "imgChain2"
      ∧ (EnvSelector.Select
          ⟨⟨[]⟩, [("group_bar", "imgAlias"), ("imgAlias", "imgChain2"),
                  ("imgChain2", "imgChain3")]⟩ ⟨"", "bar", ""⟩).1 ≠ "imgChain3" :=
  ⟨(select_one_hop ⟨⟨[]⟩, [("imgAlias", "imgReal"), ("group_bar", "imgAlias")]⟩
      ⟨"", "bar", ""⟩ 1 "group_bar" "imgAlias" "imgReal"
      ⟨by decide, by decide, by decide, by decide⟩ (by decide)).1,
   (select_one_hop
      ⟨⟨[]⟩, [("group_bar", "imgAlias"), ("imgAlias", "imgChain2"),
              ("imgChain2", "imgChain3")]⟩ ⟨"", "bar", ""⟩ 1 "group_bar" "imgAlias" "imgChain2"
      ⟨by decide, by decide, by decide, by decide⟩ (by decide)).1,
   (select_one_hop
      ⟨⟨[]⟩, [("group_bar", "imgAlias"), ("imgAlias", "imgChain2"),
              ("imgChain2", "imgChain3")]⟩ ⟨"", "bar", ""⟩ 1 "group_bar" "imgAlias" "imgChain2"
      ⟨by decide, by decide, by decide, by decide⟩ (by decide)).2
      "imgChain3" (by decide) (by decide)⟩

/-- C5: with `Params` whose `Dist`, `Group` and `OS` are all empty, `Select`
returns `T["default"]` when `"default"` is a key of the table and the literal
`"default"` when it is not, for every table, also one that has the empty
string as a key. -/
theorem select_empty_params (es : EnvSelector) :
    (es.Select ⟨"", "", ""⟩).1 = (match es.lookup.get? "default" with
                                 | some w => w
                                 | none => "default") := by
  have hscan : selectScan es.lookup (es.buildCandidateKeys ⟨"", "", ""⟩) "default"
      = "default" := by
    rw [candidates_eq]
    simp [selectScan]
  rw [select_fst, hscan]
  rfl

/-- C6: fallback with indirection.  When no non-empty candidate key of `p` is
a key of the table, `Select(p)` returns `T["default"]` if `"default"` is a key
and the literal `"default"` otherwise; over the empty table `Select` returns
`"default"` for every `p`. -/
theorem select_fallback (es : EnvSelector) (p : Params) :
    ((∀ c ∈ es.buildCandidateKeys p, c ≠ "" → es.lookup.get? c = none) →
        (es.Select p).1 = (match es.lookup.get? "default" with
                           | some w => w
                           | none => "default"))
      ∧ (EnvSelector.Select ⟨es.c, []⟩ p).1 = "default" := by
  have key : ∀ e : EnvSelector,
      (∀ c ∈ e.buildCandidateKeys p, c ≠ "" → e.lookup.get? c = none) →
        (e.Select p).1 = specResolve e.lookup "default" := by
    intro e h
    have hno : NoMatch e.lookup (e.buildCandidateKeys p) := by
      intro c hc
      by_cases hce : c = ""
      · exact Or.inl hce
      · exact Or.inr (h c hc hce)
    rw [select_fst, selectScan_of_noMatch _ _ _ hno]
  refine ⟨fun h => (key es h).trans rfl, ?_⟩
  exact (key ⟨es.c, []⟩ (fun _ _ _ => rfl)).trans rfl

/-- Witness of C6: the table `{"os_linux": "imgL", "default": "imgD"}` has no
candidate key of `Params{Dist: "trusty", Group: "foo", OS: "osx"}`, and the
selection is `"imgD"`. -/
theorem select_fallback_witness :
    (∀ c ∈ EnvSelector.buildCandidateKeys ⟨⟨[]⟩, [("os_linux", "imgL"), ("default", "imgD")]⟩
          ⟨"trusty", "foo", "osx"⟩,
        c ≠ "" → Table.get? [("os_linux", "imgL"), ("default", "imgD")] c = none)
      ∧ (EnvSelector.Select ⟨⟨[]⟩, [("os_linux", "imgL"), ("default", "imgD")]⟩
          ⟨"trusty", "foo", "osx"⟩).1 = "imgD" :=
  ⟨by decide,
   (select_fallback ⟨⟨[]⟩, [("os_linux", "imgL"), ("default", "imgD")]⟩
      ⟨"trusty", "foo", "osx"⟩).1 (by decide)⟩

/-! ## Lemmas on `strings.Contains` and `strings.Replace` -/

namespace Strings

theorem containsL_iff (sub : List Char) : ∀ s : List Char, containsL sub s = true ↔ sub <:+: s := by
  intro s
  induction s with
  | nil => simp [containsL]
  | cons c t ih =>
    simp only [containsL, Bool.or_eq_true, List.isPrefixOf_iff_prefix, ih, List.infix_cons_iff]

theorem containsL_eq_false_iff (sub s : List Char) : containsL sub s = false ↔ ¬ sub <:+: s := by
  rw [← containsL_iff, Bool.not_eq_true]

theorem replaceL_zero (old new : List Char) (s : List Char) : replaceL old new s 0 0 = s := by
  cases s <;> rfl

theorem replaceL_cons_skip (old new : List Char) (c : Char) (t : List Char) (limit k : Nat) :
    replaceL old new (c :: t) limit (k + 1) = replaceL old new t limit k := by
  cases limit <;> rfl

theorem replaceL_cons_hit (old new : List Char) (c : Char) (t : List Char) (limit : Nat)
    (h : old.isPrefixOf (c :: t) = true) :
    replaceL old new (c :: t) (limit + 1) 0
      = new ++ replaceL old new t limit (old.length - 1) := by
  simp only [replaceL, h, if_true]

theorem replaceL_cons_miss (old new : List Char) (c : Char) (t : List Char) (limit : Nat)
    (h : old.isPrefixOf (c :: t) = false) :
    replaceL old new (c :: t) (limit + 1) 0 = c :: replaceL old new t (limit + 1) 0 := by
  simp only [replaceL, h]
  rfl

theorem dropLast_append_isPrefix (old a b : List Char) :
    a ++ old.dropLast <+: a ++ old ++ b := by
  rw [List.append_assoc, List.prefix_append_right_inj]
  exact (List.dropLast_prefix old).trans (List.prefix_append old b)

theorem replaceL_skip (old new : List Char) :
    ∀ (s : List Char) (limit skip : Nat),
      replaceL old new s limit skip = replaceL old new (s.drop skip) limit 0 := by
  intro s
  induction s with
  | nil => intro limit skip; simp [replaceL]
  | cons c t ih =>
    intro limit skip
    cases skip with
    | zero => rfl
    | succ k =>
      rw [List.drop_succ_cons, ← ih limit k, replaceL_cons_skip]

theorem replaceL_of_not_infix (old new : List Char) (limit : Nat) :
    ∀ s : List Char, ¬ old <:+: s → replaceL old new s limit 0 = s := by
  intro s
  induction s with
  | nil => intro _; rfl
  | cons c t ih =>
    intro h
    cases limit with
    | zero => rfl
    | succ k =>
      have hp : old.isPrefixOf (c :: t) = false := by
        rw [Bool.eq_false_iff]
        intro hpre
        exact h (List.isPrefixOf_iff_prefix.mp hpre).isInfix
      have ht : ¬ old <:+: t := fun hi => h (List.infix_cons hi)
      rw [replaceL_cons_miss _ _ _ _ _ hp, ih ht]

theorem replaceL_first (old new : List Char) (hold : old ≠ []) (limit : Nat) (b : List Char) :
    ∀ a : List Char, ¬ old <:+: a ++ old.dropLast →
      replaceL old new (a ++ old ++ b) (limit + 1) 0 = a ++ new ++ replaceL old new b limit 0 := by
  intro a
  induction a with
  | nil =>
    intro _
    cases old with
    | nil => exact absurd rfl hold
    | cons o os =>
      have hp : (o :: os).isPrefixOf (o :: (os ++ b)) = true := by
        rw [List.isPrefixOf_iff_prefix]
        exact List.prefix_append (o :: os) b
      have hdrop : List.drop os.length (os ++ b) = b := List.drop_left os b
      show replaceL (o :: os) new (o :: (os ++ b)) (limit + 1) 0
          = new ++ replaceL (o :: os) new b limit 0
      rw [replaceL_cons_hit _ _ _ _ _ hp, replaceL_skip]
      simp only [List.length_cons, Nat.add_sub_cancel, hdrop]
  | cons x a ih =>
    intro h
    have hlen : old.length ≤ (x :: a ++ old.dropLast).length := by
      simp only [List.length_append, List.length_cons, List.length_dropLast]
      omega
    have hpre2 : x :: a ++ old.dropLast <+: x :: (a ++ old ++ b) :=
      (List.prefix_cons_inj x).mpr (dropLast_append_isPrefix old a b)
    have hp : old.isPrefixOf (x :: (a ++ old ++ b)) = false := by
      rw [Bool.eq_false_iff]
      intro hpre
      have h1 : old <+: x :: (a ++ old ++ b) := List.isPrefixOf_iff_prefix.mp hpre
      exact h (List.prefix_of_prefix_length_le h1 hpre2 hlen).isInfix
    have ha : ¬ old <:+: a ++ old.dropLast := fun hi => h (List.infix_cons hi)
    show replaceL old new (x :: (a ++ old ++ b)) (limit + 1) 0
        = x :: (a ++ new ++ replaceL old new b limit 0)
    rw [replaceL_cons_miss _ _ _ _ _ hp, ih ha]

theorem exists_first_occurrence (old : List Char) (hold : old ≠ []) :
    ∀ s : List Char, old <:+: s →
      ∃ a b, s = a ++ old ++ b ∧ ¬ old <:+: a ++ old.dropLast := by
  intro s
  induction s with
  | nil =>
    intro h
    exact absurd (List.infix_nil.mp h) hold
  | cons c t ih =>
    intro h
    by_cases hp : old <+: c :: t
    · obtain ⟨b, hb⟩ := hp
      refine ⟨[], b, by simpa using hb.symm, ?_⟩
      intro hi
      have h1 := hi.length_le
      have h2 : 0 < old.length := List.length_pos.mpr hold
      simp only [List.nil_append, List.length_dropLast] at h1
      omega
    · have ht : old <:+: t := by
        cases List.infix_cons_iff.mp h with
        | inl h0 => exact absurd h0 hp
        | inr h1 => exact h1
      obtain ⟨a, b, hab, hfirst⟩ := ih ht
      refine ⟨c :: a, b, by simp [hab], ?_⟩
      intro hi
      cases List.infix_cons_iff.mp hi with
      | inl h0 =>
        apply hp
        refine h0.trans ?_
        rw [hab]
        exact (List.prefix_cons_inj c).mpr (dropLast_append_isPrefix old a b)
      | inr h1 => exact hfirst h1

theorem mem_replaceL (old new : List Char) (x : Char) :
    ∀ (s : List Char) (limit skip : Nat),
      x ∈ replaceL old new s limit skip → x ∈ s ∨ x ∈ new := by
  intro s
  induction s with
  | nil => intro limit skip h; simp [replaceL] at h
  | cons c t ih =>
    intro limit skip h
    cases skip with
    | succ k =>
      have h' : x ∈ replaceL old new t limit k := by
        rw [replaceL_cons_skip] at h
        exact h
      cases ih limit k h' with
      | inl h0 => exact Or.inl (List.mem_cons_of_mem _ h0)
      | inr h1 => exact Or.inr h1
    | zero =>
      cases limit with
      | zero => exact Or.inl h
      | succ l =>
        by_cases hp : old.isPrefixOf (c :: t) = true
        · rw [replaceL_cons_hit _ _ _ _ _ hp, List.mem_append] at h
          cases h with
          | inl h0 => exact Or.inr h0
          | inr h1 =>
            cases ih l (old.length - 1) h1 with
            | inl h2 => exact Or.inl (List.mem_cons_of_mem _ h2)
            | inr h3 => exact Or.inr h3
        · rw [replaceL_cons_miss _ _ _ _ _ (Bool.eq_false_iff.mpr hp), List.mem_cons] at h
          cases h with
          | inl h0 => exact Or.inl (h0 ▸ List.mem_cons_self _ _)
          | inr h1 =>
            cases ih (l + 1) 0 h1 with
            | inl h2 => exact Or.inl (List.mem_cons_of_mem _ h2)
            | inr h3 => exact Or.inr h3

end Strings

/-! ## Lemmas on `modifyBuildGroup` and on the key normalization -/

theorem Replace_all_data (s : String) :
    (Replace s "IMAGE_" "" (-1)).data
      = replaceL "IMAGE_".data [] s.data (s.data.length + 1) 0 := by
  have h1 : ¬ ("IMAGE_" = "" ∨ (-1 : Int) = 0) := by decide
  have h2 : ((-1 : Int) < 0) := by decide
  have h3 : ¬ ("IMAGE_".data = []) := by decide
  unfold Replace
  rw [if_neg h1]
  simp only [h2, if_true, if_neg h3]

theorem Replace_first_data (s : String) :
    (Replace s "group_power_" "group_power-" 1).data
      = replaceL "group_power_".data "group_power-".data s.data 1 0 := by
  have h1 : ¬ ("group_power_" = "group_power-" ∨ (1 : Int) = 0) := by decide
  have h2 : ¬ ((1 : Int) < 0) := by decide
  have h3 : ¬ ("group_power_".data = []) := by decide
  unfold Replace
  rw [if_neg h1]
  simp only [h2, if_false, if_neg h3]
  rfl

theorem modifyBuildGroup_of_not_contains (s : String)
    (h : Contains s "group_power_" = false) : modifyBuildGroup s = s := by
  simp [modifyBuildGroup, h]

theorem modifyBuildGroup_data_of_first (s : String) (a b : List Char)
    (hs : s.data = a ++ "group_power_".data ++ b)
    (hfirst : ¬ "group_power_".data <:+: a ++ "group_power_".data.dropLast) :
    (modifyBuildGroup s).data = a ++ "group_power-".data ++ b := by
  have hc : Contains s "group_power_" = true := by
    unfold Contains
    rw [containsL_iff, hs]
    exact List.infix_append a _ b
  have hne : "group_power_".data ≠ [] := by decide
  simp only [modifyBuildGroup, hc, if_true]
  rw [Replace_first_data, hs, replaceL_first _ _ hne 0 b a hfirst, replaceL_zero]

theorem modifyBuildGroup_data_of_contains (s : String)
    (hc : Contains s "group_power_" = true) :
    ∃ a b, s.data = a ++ "group_power_".data ++ b
      ∧ ¬ "group_power_".data <:+: a ++ "group_power_".data.dropLast
      ∧ (modifyBuildGroup s).data = a ++ "group_power-".data ++ b := by
  have hne : "group_power_".data ≠ [] := by decide
  have hi : "group_power_".data <:+: s.data := (containsL_iff _ _).mp hc
  obtain ⟨a, b, hs, hfirst⟩ := exists_first_occurrence _ hne s.data hi
  exact ⟨a, b, hs, hfirst, modifyBuildGroup_data_of_first s a b hs hfirst⟩

theorem modifyBuildGroup_fixed_iff (s : String) :
    modifyBuildGroup s = s ↔ Contains s "group_power_" = false := by
  constructor
  · intro h
    cases hc : Contains s "group_power_" with
    | false => rfl
    | true =>
      exfalso
      obtain ⟨a, b, hs, _, hm⟩ := modifyBuildGroup_data_of_contains s hc
      rw [h, hs, List.append_assoc, List.append_assoc, List.append_right_inj,
        List.append_left_inj] at hm
      exact absurd hm (by decide)
  · exact modifyBuildGroup_of_not_contains s

/-! ## `modifyBuildGroup` -/

/-- C9: `modifyBuildGroup s = s` when `s` does not contain `"group_power_"`;
otherwise `s` splits as `a ++ "group_power_" ++ b` at the first occurrence
(`"group_power_"` does not occur in `a ++ "group_power"`, i.e. it occurs in
`a ++ "group_power_"` only at the very end), and for every such split
`modifyBuildGroup s = a ++ "group_power-" ++ b`: whatever `b` holds, later
occurrences included, is kept. -/
theorem modifyBuildGroup_first_only (s : String) :
    (Contains s "group_power_" = false → modifyBuildGroup s = s)
      ∧ (∀ a b : String, s = a ++ "group_power_" ++ b →
            Contains (a ++ "group_power") "group_power_" = false →
            modifyBuildGroup s = a ++ "group_power-" ++ b)
      ∧ (Contains s "group_power_" = true →
            ∃ a b : String, s = a ++ "group_power_" ++ b
              ∧ Contains (a ++ "group_power") "group_power_" = false) := by
  have hdl : "group_power_".data.dropLast = "group_power".data := by decide
  refine ⟨modifyBuildGroup_of_not_contains s, ?_, ?_⟩
  · intro a b hs hfirst
    apply String.ext
    have hs' : s.data = a.data ++ "group_power_".data ++ b.data := by
      rw [hs, String.data_append, String.data_append]
    have hf' : ¬ "group_power_".data <:+: a.data ++ "group_power_".data.dropLast := by
      rw [hdl, ← String.data_append, ← containsL_eq_false_iff]
      exact hfirst
    rw [modifyBuildGroup_data_of_first s a.data b.data hs' hf', String.data_append,
      String.data_append]
  · intro hc
    obtain ⟨a, b, hs, hfirst, _⟩ := modifyBuildGroup_data_of_contains s hc
    refine ⟨⟨a⟩, ⟨b⟩, ?_, ?_⟩
    · apply String.ext
      rw [hs, String.data_append, String.data_append]
    · unfold Contains
      rw [containsL_eq_false_iff, String.data_append, ← hdl]
      exact hfirst

/-- Witness of C9: `"group_power_a_group_power_b"` becomes
`"group_power-a_group_power_b"`; the second occurrence is kept. -/
theorem modifyBuildGroup_first_only_witness :
    modifyBuildGroup "group_power_a_group_power_b" = "group_power-a_group_power_b" :=
  (modifyBuildGroup_first_only "group_power_a_group_power_b").2.1 "" "a_group_power_b"
    (by decide) (by decide)

/-! ## Lemmas on tables and on `buildLookup` -/

theorem Table.get?_filter_ne (k k' : String) :
    ∀ m : Table, Table.get? (m.filter (fun e => decide (e.1 ≠ k))) k'
      = if k' = k then none else Table.get? m k' := by
  intro m
  induction m with
  | nil => simp [Table.get?]
  | cons e rest ih =>
    obtain ⟨ek, ev⟩ := e
    simp only [ne_eq, decide_not] at ih
    by_cases hek : ek = k
    · subst hek
      by_cases hk : k' = ek
      · subst hk
        simpa [List.filter_cons] using ih
      · have hk2 : ¬ ek = k' := fun h => hk h.symm
        simp [List.filter_cons, ih, hk, hk2, Table.get?]
    · by_cases hk : k' = k
      · subst hk
        simp [List.filter_cons, hek, Table.get?, ih]
      · simp [List.filter_cons, hek, Table.get?, ih, hk]

theorem Table.get?_set (m : Table) (k v k' : String) :
    (m.set k v).get? k' = if k = k' then some v else m.get? k' := by
  unfold Table.set
  by_cases hk : k = k'
  · simp [Table.get?, hk]
  · have hk2 : ¬ k' = k := fun h => hk h.symm
    simp only [Table.get?, if_neg hk, Table.get?_filter_ne, if_neg hk2]

theorem buildLookup_lookup (u : Char → Char) (es : EnvSelector) :
    (es.buildLookup u).lookup
      = es.c.entries.foldl
          (fun (st : Table) kv =>
            if HasPrefix kv.1 "IMAGE_" then Table.set st (lookupKey u kv.1) kv.2 else st)
          [] := rfl

theorem foldl_filter_prefixed (u : Char → Char) :
    ∀ (l : List (String × String)) (init : Table),
      l.foldl (fun (st : Table) kv =>
          if HasPrefix kv.1 "IMAGE_" then Table.set st (lookupKey u kv.1) kv.2 else st) init
        = (l.filter (fun kv => HasPrefix kv.1 "IMAGE_")).foldl
            (fun (st : Table) kv =>
              if HasPrefix kv.1 "IMAGE_" then Table.set st (lookupKey u kv.1) kv.2 else st) init := by
  intro l
  induction l with
  | nil => intro init; rfl
  | cons kv rest ih =>
    intro init
    by_cases hp : HasPrefix kv.1 "IMAGE_" = true
    · simp only [List.foldl_cons, List.filter_cons, hp, if_true]
      exact ih _
    · simp only [List.foldl_cons, List.filter_cons, hp, if_false]
      exact ih _

theorem foldl_keys (u : Char → Char) (k : String) :
    ∀ (l : List (String × String)) (init : Table),
      Table.hasKey
          (l.foldl (fun (st : Table) kv =>
            if HasPrefix kv.1 "IMAGE_" then Table.set st (lookupKey u kv.1) kv.2 else st) init) k = true →
        Table.hasKey init k = true
          ∨ ∃ kv ∈ l, HasPrefix kv.1 "IMAGE_" = true ∧ k = lookupKey u kv.1 := by
  intro l
  induction l with
  | nil => intro init h; exact Or.inl h
  | cons kv rest ih =>
    intro init h
    rw [List.foldl_cons] at h
    cases ih _ h with
    | inr hex =>
      obtain ⟨kv', hmem, hp, hk⟩ := hex
      exact Or.inr ⟨kv', List.mem_cons_of_mem _ hmem, hp, hk⟩
    | inl hinit =>
      by_cases hp : HasPrefix kv.1 "IMAGE_" = true
      · rw [if_pos hp] at hinit
        by_cases hk : lookupKey u kv.1 = k
        · exact Or.inr ⟨kv, List.mem_cons_self _ _, hp, hk.symm⟩
        · left
          unfold Table.hasKey at hinit ⊢
          rw [Table.get?_set, if_neg hk] at hinit
          exact hinit
      · rw [if_neg hp] at hinit
        exact Or.inl hinit

theorem replaceL_limit_succ (old new : List Char) :
    ∀ (s : List Char) (limit skip : Nat), s.length ≤ limit →
      replaceL old new s (limit + 1) skip = replaceL old new s limit skip := by
  intro s
  induction s with
  | nil => intro limit skip _; simp [replaceL]
  | cons c t ih =>
    intro limit skip hlen
    have ht : t.length ≤ limit := by
      simp only [List.length_cons] at hlen
      omega
    cases skip with
    | succ k => rw [replaceL_cons_skip, replaceL_cons_skip, ih limit k ht]
    | zero =>
      cases limit with
      | zero => simp at hlen
      | succ l =>
        have ht' : t.length ≤ l := by
          simp only [List.length_cons] at hlen
          omega
        cases hp : old.isPrefixOf (c :: t) with
        | true =>
          rw [replaceL_cons_hit _ _ _ _ _ hp, replaceL_cons_hit _ _ _ _ _ hp, ih l _ ht']
        | false =>
          rw [replaceL_cons_miss _ _ _ _ _ hp, replaceL_cons_miss _ _ _ _ _ hp, ih (l + 1) 0 ht]

theorem replaceL_limit_add (old new : List Char) (s : List Char) (limit skip : Nat)
    (h : s.length ≤ limit) :
    ∀ d : Nat, replaceL old new s (limit + d) skip = replaceL old new s limit skip := by
  intro d
  induction d with
  | zero => rfl
  | succ e ih =>
    rw [← Nat.add_assoc, replaceL_limit_succ old new s (limit + e) skip (by omega), ih]

theorem Replace_all_of_hasPrefix (key : String) (h : HasPrefix key "IMAGE_" = true) :
    Replace key "IMAGE_" "" (-1) = Replace (specStripPrefix key "IMAGE_") "IMAGE_" "" (-1) := by
  apply String.ext
  obtain ⟨r, hr⟩ := List.isPrefixOf_iff_prefix.mp h
  have hstrip : (specStripPrefix key "IMAGE_").data = r := by
    simp only [specStripPrefix, h, if_true]
    rw [← hr]
    exact List.drop_left _ r
  have hhit : "IMAGE_".data.isPrefixOf ('I' :: ("MAGE_".data ++ r)) = true := by
    rw [List.isPrefixOf_iff_prefix]
    exact List.prefix_append "IMAGE_".data r
  have hlen : ("IMAGE_".data ++ r).length = r.length + 6 := by
    rw [List.length_append]
    have : "IMAGE_".data.length = 6 := by decide
    omega
  have hkey : key.data = 'I' :: ("MAGE_".data ++ r) := by rw [← hr]; rfl
  rw [Replace_all_data, Replace_all_data, hstrip, hkey]
  have hlen2 : ('I' :: ("MAGE_".data ++ r)).length = r.length + 6 := by
    rw [← hlen]; rfl
  rw [hlen2, replaceL_cons_hit _ _ _ _ _ hhit, replaceL_skip]
  have hdrop : List.drop ("IMAGE_".data.length - 1) ("MAGE_".data ++ r) = r :=
    List.drop_left "MAGE_".data r
  rw [hdrop, List.nil_append]
  exact replaceL_limit_add _ _ r (r.length + 1) 0 (by omega) 5

/-! ## The lookup-table builder -/

/-- C7, the code at the failing input: the key `"IMAGE_GROUP_IMAGE_BUILDER"`
begins with `"IMAGE_"`; stripping only the leading prefix, lowercasing and
normalizing the group delimiter gives `"group_image_builder"`, under which
`Params{Group: "image_builder"}` selects the configured image.  `buildLookup`
removes the inner `"IMAGE_"` as well and stores the pair under
`"group_builder"`: the table has no entry for `"group_image_builder"` and the
same `Params` select `"default"`.  Likewise `"IMAGE_IMAGE_X"` is stored under
`"x"`, not `"image_x"`. -/
theorem buildLookup_inner_prefix_removed :
    HasPrefix "IMAGE_GROUP_IMAGE_BUILDER" "IMAGE_" = true
      ∧ specLookupKey id "IMAGE_GROUP_IMAGE_BUILDER" = "group_image_builder"
      ∧ (EnvSelector.Select ⟨⟨[]⟩, [(specLookupKey id "IMAGE_GROUP_IMAGE_BUILDER", "img")]⟩
          ⟨"", "image_builder", ""⟩).1 = "img"
      ∧ (EnvSelector.buildLookup id ⟨⟨[("IMAGE_GROUP_IMAGE_BUILDER", "img")]⟩, []⟩).lookup
          = [("group_builder", "img")]
      ∧ Table.get?
          (EnvSelector.buildLookup id ⟨⟨[("IMAGE_GROUP_IMAGE_BUILDER", "img")]⟩, []⟩).lookup
          (specLookupKey id "IMAGE_GROUP_IMAGE_BUILDER") = none
      ∧ ((NewEnvSelector id ⟨[("IMAGE_GROUP_IMAGE_BUILDER", "img")]⟩).1.Select
          ⟨"", "image_builder", ""⟩).1 = "default"
      ∧ HasPrefix "IMAGE_IMAGE_X" "IMAGE_" = true
      ∧ specLookupKey id "IMAGE_IMAGE_X" = "image_x"
      ∧ (EnvSelector.buildLookup id ⟨⟨[("IMAGE_IMAGE_X", "img")]⟩, []⟩).lookup
          = [("x", "img")] := by
  decide

/-- C8: pairs whose key does not begin with `"IMAGE_"` contribute nothing: the
table built from a source equals the table built from the source without those
pairs, every key of the table is the normalization of some source key that
begins with `"IMAGE_"`, and a source without any such key (the empty source
included) yields the empty table. -/
theorem buildLookup_ignores_unprefixed (u : Char → Char) (es : EnvSelector) :
    (es.buildLookup u).lookup
        = (EnvSelector.buildLookup u
            ⟨⟨es.c.entries.filter (fun kv => HasPrefix kv.1 "IMAGE_")⟩, es.lookup⟩).lookup
      ∧ (∀ k, Table.hasKey (es.buildLookup u).lookup k = true →
            ∃ kv ∈ es.c.entries, HasPrefix kv.1 "IMAGE_" = true
              ∧ k = modifyBuildGroup (ToLower u (Replace kv.1 "IMAGE_" "" (-1))))
      ∧ ((∀ kv ∈ es.c.entries, HasPrefix kv.1 "IMAGE_" = false) →
            (es.buildLookup u).lookup = []) := by
  refine ⟨?_, ?_, ?_⟩
  · rw [buildLookup_lookup, buildLookup_lookup]
    exact foldl_filter_prefixed u es.c.entries []
  · intro k hk
    rw [buildLookup_lookup] at hk
    cases foldl_keys u k es.c.entries [] hk with
    | inl h0 => simp [Table.hasKey, Table.get?] at h0
    | inr h1 => exact h1
  · intro hnone
    have hf : es.c.entries.filter (fun kv => HasPrefix kv.1 "IMAGE_") = [] := by
      rw [List.filter_eq_nil_iff]
      intro kv hkv
      rw [hnone kv hkv]
      exact Bool.false_ne_true
    rw [buildLookup_lookup, foldl_filter_prefixed, hf]
    rfl

/-- Witness of C8: in the source `[("FOO", "x"), ("IMAGE_DIST_TRUSTY", "imgT"),
("POOL_IMAGE_Y", "y")]` only the second pair reaches the table, and the source
`[("FOO", "x")]` yields the empty table. -/
theorem buildLookup_ignores_unprefixed_witness :
    (EnvSelector.buildLookup id
        ⟨⟨[("FOO", "x"), ("IMAGE_DIST_TRUSTY", "imgT"), ("POOL_IMAGE_Y", "y")]⟩, []⟩).lookup
        = [("dist_trusty", "imgT")]
      ∧ (EnvSelector.buildLookup id ⟨⟨[("FOO", "x")]⟩, []⟩).lookup = [] :=
  ⟨(buildLookup_ignores_unprefixed id
      ⟨⟨[("FOO", "x"), ("IMAGE_DIST_TRUSTY", "imgT"), ("POOL_IMAGE_Y", "y")]⟩, []⟩).1.trans
      (by decide),
   (buildLookup_ignores_unprefixed id ⟨⟨[("FOO", "x")]⟩, []⟩).2.2 (by decide)⟩

/-! ## Idempotence of the normalization -/

namespace Strings

theorem char_toNat_ofNat (n : Nat) (h : n < 55296) : (Char.ofNat n).toNat = n := by
  have hv : n.isValidChar := Or.inl h
  simp [Char.ofNat, hv, Char.ofNatAux, Char.toNat]
  rfl

theorem toLowerRune_of_not_upper (u : Char → Char) (c : Char) (hc : c.toNat < 128)
    (hn : isUpperASCII c = false) : toLowerRune u c = c := by
  simp [toLowerRune, hc, hn]

theorem isUpperASCII_toLowerRune (u : Char → Char)
    (h1 : ∀ c : Char, 128 ≤ c.toNat → isUpperASCII (u c) = false) (c : Char) :
    isUpperASCII (toLowerRune u c) = false := by
  unfold toLowerRune
  by_cases hc : c.toNat < 128
  · rw [if_pos hc]
    cases hup : isUpperASCII c with
    | false => simpa using hup
    | true =>
      simp only [if_true]
      unfold isUpperASCII at hup ⊢
      rw [char_toNat_ofNat _ (by omega)]
      simp only [Bool.and_eq_true, decide_eq_true_eq] at hup
      simp only [Bool.and_eq_false_iff, decide_eq_false_iff_not]
      omega
  · rw [if_neg hc]
    exact h1 c (by omega)

theorem toLowerRune_lt (u : Char → Char) (c : Char) (hc : c.toNat < 128) :
    (toLowerRune u c).toNat < 128 := by
  unfold toLowerRune
  rw [if_pos hc]
  cases hup : isUpperASCII c with
  | false => simpa using hc
  | true =>
    simp only [if_true]
    unfold isUpperASCII at hup
    simp only [Bool.and_eq_true, decide_eq_true_eq] at hup
    rw [char_toNat_ofNat _ (by omega)]
    omega

theorem toLowerRune_idem (u : Char → Char)
    (h1 : ∀ c : Char, 128 ≤ c.toNat → isUpperASCII (u c) = false)
    (h2 : ∀ c : Char, 128 ≤ c.toNat → 128 ≤ (u c).toNat → u (u c) = u c) (c : Char) :
    toLowerRune u (toLowerRune u c) = toLowerRune u c := by
  by_cases hd : (toLowerRune u c).toNat < 128
  · exact toLowerRune_of_not_upper u _ hd (isUpperASCII_toLowerRune u h1 c)
  · have hc : ¬ c.toNat < 128 := fun hc => hd (toLowerRune_lt u c hc)
    have hdu : toLowerRune u c = u c := by simp [toLowerRune, hc]
    rw [hdu] at hd ⊢
    have : toLowerRune u (u c) = u (u c) := by simp [toLowerRune, hd]
    rw [this]
    exact h2 c (by omega) (by omega)

end Strings

theorem mem_modifyBuildGroup (s : String) (x : Char) (hx : x ∈ (modifyBuildGroup s).data) :
    x ∈ s.data ∨ x ∈ "group_power-".data := by
  unfold modifyBuildGroup at hx
  cases hc : Contains s "group_power_" with
  | false =>
    rw [hc] at hx
    exact Or.inl hx
  | true =>
    rw [hc, if_pos rfl, Replace_first_data] at hx
    exact mem_replaceL _ _ x s.data 1 0 hx

theorem lookupKey_chars (u : Char → Char)
    (h1 : ∀ c : Char, 128 ≤ c.toNat → isUpperASCII (u c) = false)
    (h2 : ∀ c : Char, 128 ≤ c.toNat → 128 ≤ (u c).toNat → u (u c) = u c)
    (k : String) (x : Char) (hx : x ∈ (lookupKey u k).data) :
    isUpperASCII x = false ∧ toLowerRune u x = x := by
  cases mem_modifyBuildGroup _ x hx with
  | inl hlow =>
    obtain ⟨c, _, hcx⟩ := List.mem_map.mp hlow
    rw [← hcx]
    exact ⟨isUpperASCII_toLowerRune u h1 c, toLowerRune_idem u h1 h2 c⟩
  | inr hgp =>
    have hall : ∀ y ∈ "group_power-".data, isUpperASCII y = false ∧ y.toNat < 128 := by
      decide
    exact ⟨(hall x hgp).1, toLowerRune_of_not_upper u x (hall x hgp).2 (hall x hgp).1⟩

theorem lookupKey_lookupKey (u : Char → Char)
    (h1 : ∀ c : Char, 128 ≤ c.toNat → isUpperASCII (u c) = false)
    (h2 : ∀ c : Char, 128 ≤ c.toNat → 128 ≤ (u c).toNat → u (u c) = u c) (k : String) :
    lookupKey u (lookupKey u k) = modifyBuildGroup (lookupKey u k) := by
  have hchars := lookupKey_chars u h1 h2 k
  have hno : ¬ "IMAGE_".data <:+: (lookupKey u k).data := by
    intro hi
    have hI : 'I' ∈ (lookupKey u k).data := hi.subset (by decide)
    have := (hchars 'I' hI).1
    exact absurd this (by decide)
  have hrep : Replace (lookupKey u k) "IMAGE_" "" (-1) = lookupKey u k := by
    apply String.ext
    rw [Replace_all_data, replaceL_of_not_infix _ _ _ _ hno]
  have hlow : ToLower u (lookupKey u k) = lookupKey u k := by
    apply String.ext
    show (lookupKey u k).data.map (toLowerRune u) = (lookupKey u k).data
    conv_rhs => rw [← List.map_id (lookupKey u k).data]
    exact List.map_congr_left (fun x hx => (hchars x hx).2)
  show modifyBuildGroup (ToLower u (Replace (lookupKey u k) "IMAGE_" "" (-1)))
      = modifyBuildGroup (lookupKey u k)
  rw [hrep, hlow]

/-- C10, as stated, fails: the key `"group_power_a_group_power_b"` normalizes
to `"group_power-a_group_power_b"`, which still contains `"group_power_"`, and
normalizing again rewrites that occurrence too; the same holds for
`modifyBuildGroup` alone. -/
theorem normalization_idempotent_counterexample :
    lookupKey id "group_power_a_group_power_b" = "group_power-a_group_power_b"
      ∧ lookupKey id (lookupKey id "group_power_a_group_power_b")
          = "group_power-a_group_power-b"
      ∧ lookupKey id (lookupKey id "group_power_a_group_power_b")
          ≠ lookupKey id "group_power_a_group_power_b"
      ∧ modifyBuildGroup (modifyBuildGroup "group_power_a_group_power_b")
          ≠ modifyBuildGroup "group_power_a_group_power_b" := by
  decide

/-- C10, amended: re-normalizing a normalized key is a no-op exactly when the
normalized key holds no further `"group_power_"`.  For every key `k`,
`normalize(normalize(k)) = normalize(k)` if and only if `normalize(k)` does not
contain `"group_power_"` (given that lower-casing a non-ASCII rune never yields
an ASCII capital and is idempotent), and
`modifyBuildGroup(modifyBuildGroup(k)) = modifyBuildGroup(k)` if and only if
`modifyBuildGroup(k)` does not contain `"group_power_"`. -/
theorem normalization_idempotent_iff (u : Char → Char) (k : String) :
    ((∀ c : Char, 128 ≤ c.toNat → isUpperASCII (u c) = false) →
      (∀ c : Char, 128 ≤ c.toNat → 128 ≤ (u c).toNat → u (u c) = u c) →
        (lookupKey u (lookupKey u k) = lookupKey u k
          ↔ Contains (lookupKey u k) "group_power_" = false))
      ∧ (modifyBuildGroup (modifyBuildGroup k) = modifyBuildGroup k
          ↔ Contains (modifyBuildGroup k) "group_power_" = false) := by
  refine ⟨?_, modifyBuildGroup_fixed_iff (modifyBuildGroup k)⟩
  intro h1 h2
  rw [lookupKey_lookupKey u h1 h2 k]
  exact modifyBuildGroup_fixed_iff (lookupKey u k)

/-- Witness of C10 (amended): `"IMAGE_GROUP_POWER_SMALL"` normalizes to
`"group_power-small"`, which holds no `"group_power_"`, and normalizing it
again changes nothing. -/
theorem normalization_idempotent_iff_witness :
    Contains (lookupKey id "IMAGE_GROUP_POWER_SMALL") "group_power_" = false
      ∧ lookupKey id (lookupKey id "IMAGE_GROUP_POWER_SMALL")
          = lookupKey id "IMAGE_GROUP_POWER_SMALL" :=
  ⟨by decide,
   ((normalization_idempotent_iff id "IMAGE_GROUP_POWER_SMALL").1
      (fun c hc => by
        simp only [isUpperASCII, id, Bool.and_eq_false_iff, decide_eq_false_iff_not]
        omega)
      (fun _ _ _ => rfl)).mpr (by decide)⟩

/-! ## Last write wins -/

theorem buildLookup_snoc (u : Char → Char) (before : List (String × String))
    (key value : String) (l l' : Table) :
    (EnvSelector.buildLookup u ⟨⟨before ++ [(key, value)]⟩, l⟩).lookup
      = if HasPrefix key "IMAGE_" then
          Table.set (EnvSelector.buildLookup u ⟨⟨before⟩, l'⟩).lookup (lookupKey u key) value
        else (EnvSelector.buildLookup u ⟨⟨before⟩, l'⟩).lookup := by
  rw [buildLookup_lookup, buildLookup_lookup, List.foldl_append]
  rfl

theorem buildLookup_get?_eq_getLast? (u : Char → Char) (n : String) (l : Table) :
    ∀ src : List (String × String),
      Table.get? (EnvSelector.buildLookup u ⟨⟨src⟩, l⟩).lookup n
        = ((src.filter (fun kv => HasPrefix kv.1 "IMAGE_"
              && decide (lookupKey u kv.1 = n))).getLast?).map (fun kv => kv.2) := by
  intro src
  induction src using List.reverseRecOn with
  | nil => rfl
  | append_singleton before kv ih =>
    obtain ⟨key, value⟩ := kv
    rw [buildLookup_snoc u before key value l l, List.filter_append]
    by_cases hp : HasPrefix key "IMAGE_" = true
    · by_cases hn : lookupKey u key = n
      · simp [hp, hn, Table.get?_set, List.filter_cons]
      · rw [if_pos hp, Table.get?_set, if_neg hn, ih]
        simp [hp, hn, List.filter_cons]
    · rw [if_neg hp, ih]
      simp [hp, List.filter_cons]

theorem buildLookup_get?_last (u : Char → Char) (n v : String) (l : Table) :
    ∀ src : List (String × String),
      Table.get? (EnvSelector.buildLookup u ⟨⟨src⟩, l⟩).lookup n = some v →
        ∃ before kv after, src = before ++ kv :: after
          ∧ HasPrefix kv.1 "IMAGE_" = true ∧ lookupKey u kv.1 = n ∧ kv.2 = v
          ∧ ∀ kv' ∈ after, ¬ (HasPrefix kv'.1 "IMAGE_" = true ∧ lookupKey u kv'.1 = n) := by
  intro src
  induction src using List.reverseRecOn with
  | nil => intro h; simp [buildLookup_lookup, Table.get?] at h
  | append_singleton before kv ih =>
    intro h
    obtain ⟨key, value⟩ := kv
    rw [buildLookup_snoc u before key value l l] at h
    have hold : Table.get? (EnvSelector.buildLookup u ⟨⟨before⟩, l⟩).lookup n = some v →
        ∃ b kv0 a, before ++ [(key, value)] = b ++ kv0 :: a
          ∧ HasPrefix kv0.1 "IMAGE_" = true ∧ lookupKey u kv0.1 = n ∧ kv0.2 = v
          ∧ (¬ (HasPrefix key "IMAGE_" = true ∧ lookupKey u key = n) →
              ∀ kv' ∈ a, ¬ (HasPrefix kv'.1 "IMAGE_" = true ∧ lookupKey u kv'.1 = n)) := by
      intro h0
      obtain ⟨b, kv0, a, hsrc, hp0, hn0, hv0, hafter⟩ := ih h0
      refine ⟨b, kv0, a ++ [(key, value)], by simp [hsrc], hp0, hn0, hv0, ?_⟩
      intro hnot kv' hmem
      cases List.mem_append.mp hmem with
      | inl h1 => exact hafter kv' h1
      | inr h2 =>
        rw [List.mem_singleton] at h2
        rw [h2]
        exact hnot
    by_cases hp : HasPrefix key "IMAGE_" = true
    · rw [if_pos hp, Table.get?_set] at h
      by_cases hn : lookupKey u key = n
      · rw [if_pos hn] at h
        refine ⟨before, (key, value), [], rfl, hp, hn, Option.some.inj h, ?_⟩
        intro kv' hmem
        simp at hmem
      · rw [if_neg hn] at h
        obtain ⟨b, kv0, a, hsrc, hp0, hn0, hv0, hafter⟩ := hold h
        exact ⟨b, kv0, a, hsrc, hp0, hn0, hv0, hafter (fun hh => hn hh.2)⟩
    · rw [if_neg hp] at h
      obtain ⟨b, kv0, a, hsrc, hp0, hn0, hv0, hafter⟩ := hold h
      exact ⟨b, kv0, a, hsrc, hp0, hn0, hv0, hafter (fun hh => hp hh.1)⟩

/-- C11: last write wins.  For every config source and every key `n`, the
table's entry for `n` is the value of the last pair of the source whose key
begins with `"IMAGE_"` and normalizes to `n` (and there is no entry when there
is no such pair); when the entry is `v`, the source splits at a pair with value
`v` whose key normalizes to `n` and no later pair normalizes to `n`. -/
theorem buildLookup_last_write_wins (u : Char → Char) (es : EnvSelector) (n : String) :
    Table.get? (es.buildLookup u).lookup n
        = ((es.c.entries.filter (fun kv => HasPrefix kv.1 "IMAGE_"
              && decide (modifyBuildGroup (ToLower u (Replace kv.1 "IMAGE_" "" (-1))) = n))
            ).getLast?).map (fun kv => kv.2)
      ∧ ∀ v, Table.get? (es.buildLookup u).lookup n = some v →
          ∃ before kv after, es.c.entries = before ++ kv :: after
            ∧ HasPrefix kv.1 "IMAGE_" = true
            ∧ modifyBuildGroup (ToLower u (Replace kv.1 "IMAGE_" "" (-1))) = n
            ∧ kv.2 = v
            ∧ ∀ kv' ∈ after, ¬ (HasPrefix kv'.1 "IMAGE_" = true
                ∧ modifyBuildGroup (ToLower u (Replace kv'.1 "IMAGE_" "" (-1))) = n) :=
  ⟨buildLookup_get?_eq_getLast? u n es.lookup es.c.entries,
   fun v h => buildLookup_get?_last u n v es.lookup es.c.entries h⟩

/-- Witness of C11: `"IMAGE_GROUP_POWER_X"` and `"IMAGE_GROUP_POWER-X"` both
normalize to `"group_power-x"`; enumerated in this order the table maps
`"group_power-x"` to the value of the second pair, which is the last pair of
the source normalizing to that key. -/
theorem buildLookup_last_write_wins_witness :
    Table.get?
        (EnvSelector.buildLookup id
          ⟨⟨[("IMAGE_GROUP_POWER_X", "first"), ("IMAGE_GROUP_POWER-X", "second")]⟩, []⟩).lookup
        "group_power-x" = some "second"
      ∧ ∃ before kv after,
          [("IMAGE_GROUP_POWER_X", "first"), ("IMAGE_GROUP_POWER-X", "second")]
              = before ++ kv :: after
            ∧ HasPrefix kv.1 "IMAGE_" = true
            ∧ modifyBuildGroup (ToLower id (Replace kv.1 "IMAGE_" "" (-1))) = "group_power-x"
            ∧ kv.2 = "second"
            ∧ ∀ kv' ∈ after, ¬ (HasPrefix kv'.1 "IMAGE_" = true
                ∧ modifyBuildGroup (ToLower id (Replace kv'.1 "IMAGE_" "" (-1)))
                    = "group_power-x") :=
  ⟨by decide,
   (buildLookup_last_write_wins id
      ⟨⟨[("IMAGE_GROUP_POWER_X", "first"), ("IMAGE_GROUP_POWER-X", "second")]⟩, []⟩
      "group_power-x").2 "second" (by decide)⟩

/-! ## Bounds and totality of the selection -/

/-- C12, as stated, fails: with `Dist`, `Group` and `OS` all non-empty the
candidate list has eight non-empty entries (two per tier, four tiers). -/
theorem buildCandidateKeys_seven_counterexample :
    ((EnvSelector.buildCandidateKeys ⟨⟨[]⟩, []⟩ ⟨"trusty", "foo", "linux"⟩).filter
        (fun k => decide (k ≠ ""))).length = 8
      ∧ ¬ ((EnvSelector.buildCandidateKeys ⟨⟨[]⟩, []⟩ ⟨"trusty", "foo", "linux"⟩).filter
            (fun k => decide (k ≠ ""))).length ≤ 7 := by
  decide

/-- C12, amended: for every `Params p` the list returned by
`buildCandidateKeys(p)` contains at most 8 non-empty entries (and at most 9
entries in all). -/
theorem buildCandidateKeys_at_most_eight (es : EnvSelector) (p : Params) :
    ((es.buildCandidateKeys p).filter (fun k => decide (k ≠ ""))).length ≤ 8
      ∧ (es.buildCandidateKeys p).length ≤ 9 := by
  have hlen : (es.buildCandidateKeys p).length ≤ 9 := by
    rw [candidates_eq]
    by_cases hd : p.Dist = "" <;> by_cases hg : p.Group = "" <;> by_cases ho : p.OS = "" <;>
      simp [hd, hg, ho]
  refine ⟨?_, hlen⟩
  have hsplit : es.buildCandidateKeys p = "" :: (es.buildCandidateKeys p).tail := by
    rw [candidates_eq]
    rfl
  rw [hsplit, List.filter_cons]
  have htail : (es.buildCandidateKeys p).tail.length ≤ 8 := by
    rw [List.length_tail]
    omega
  simp only [ne_eq, not_true_eq_false, decide_False, Bool.false_eq_true, if_false]
  exact le_trans (List.length_filter_le _ _) htail

/-- C13: `Select` never fails: for every lookup table and every `Params` it
returns a name together with the `nil` error. -/
theorem select_never_fails (es : EnvSelector) (p : Params) :
    (es.Select p).2 = none ∧ ∃ name : String, es.Select p = (name, none) := by
  have h : (es.Select p).2 = none := by
    cases hl : es.lookup.get? (selectScan es.lookup (es.buildCandidateKeys p) "default") <;>
      simp [EnvSelector.Select, hl]
  refine ⟨h, (es.Select p).1, ?_⟩
  rw [← h]

/-- C17: the name returned by `Select` is either the literal `"default"` or a
value stored in the table under some key; no string built from the `Params`
fields is ever returned as such. -/
theorem select_result_from_table (es : EnvSelector) (p : Params) :
    (es.Select p).1 = "default" ∨ ∃ k, es.lookup.get? k = some (es.Select p).1 := by
  rw [select_fst]
  have hres : ∀ n : String, (n = "default" ∨ ∃ k, es.lookup.get? k = some n) →
      (specResolve es.lookup n = "default"
        ∨ ∃ k, es.lookup.get? k = some (specResolve es.lookup n)) := by
    intro n hn
    unfold specResolve
    cases hT : es.lookup.get? n with
    | some w => exact Or.inr ⟨n, hT⟩
    | none => exact hn
  apply hres
  cases firstMatch_or_noMatch es.lookup (es.buildCandidateKeys p) with
  | inl h =>
    obtain ⟨i, c, v, hfm⟩ := h
    rw [selectScan_of_firstMatch _ _ _ i c v hfm]
    exact Or.inr ⟨c, hfm.2.2.1⟩
  | inr h =>
    rw [selectScan_of_noMatch _ _ _ h]
    exact Or.inl rfl

/-- C14: tier precedence.  With `Dist`, `Group` and `OS` all non-empty and
neither combined key in the table: if `"dist_" + Dist` is in the table with
value `v`, `Select` returns the one-hop resolution of `v`, whatever group-level
or OS-level keys the table holds; and if no dist-level key is in the table but
`"group_" + Group` is, with value `w`, `Select` returns the one-hop resolution
of `w`, whatever OS-level keys the table holds. -/
theorem select_tier_precedence (es : EnvSelector) (p : Params)
    (hd : p.Dist ≠ "") (hg : p.Group ≠ "") (ho : p.OS ≠ "")
    (hc1 : es.lookup.get? ("dist_" ++ p.Dist ++ "_group_" ++ p.Group) = none)
    (hc2 : es.lookup.get? (p.Dist ++ "_" ++ p.Group) = none) :
    (∀ v, es.lookup.get? ("dist_" ++ p.Dist) = some v →
        (es.Select p).1 = (match es.lookup.get? v with
                           | some x => x
                           | none => v))
      ∧ (∀ w, es.lookup.get? ("dist_" ++ p.Dist) = none → es.lookup.get? p.Dist = none →
          es.lookup.get? ("group_" ++ p.Group) = some w →
            (es.Select p).1 = (match es.lookup.get? w with
                               | some x => x
                               | none => w)) := by
  have hne1 : "dist_" ++ p.Dist ≠ "" := append_ne_empty _ _ (by decide)
  have hne2 : "group_" ++ p.Group ≠ "" := append_ne_empty _ _ (by decide)
  refine ⟨?_, ?_⟩
  · intro v hv
    have hscan : selectScan es.lookup (es.buildCandidateKeys p) "default" = v := by
      rw [candidates_eq]
      simp [hd, hg, ho, selectScan, hc1, hc2, hv, hne1]
    rw [select_fst, hscan]
    rfl
  · intro w hd1 hd2 hw
    have hscan : selectScan es.lookup (es.buildCandidateKeys p) "default" = w := by
      rw [candidates_eq]
      simp [hd, hg, ho, selectScan, hc1, hc2, hd1, hd2, hw, hne2]
    rw [select_fst, hscan]
    rfl

/-- Witness of C14: for `Params{Dist: "trusty", Group: "foo", OS: "linux"}` the
table `{"group_foo": "imgG", "dist_trusty": "imgD", "os_linux": "imgL"}` gives
`"imgD"` and the table `{"linux": "imgL", "group_foo": "imgG"}` gives `"imgG"`. -/
theorem select_tier_precedence_witness :
    (EnvSelector.Select
        ⟨⟨[]⟩, [("group_foo", "imgG"), ("dist_trusty", "imgD"), ("os_linux", "imgL")]⟩
        ⟨"trusty", "foo", "linux"⟩).1 = "imgD"
      ∧ (EnvSelector.Select ⟨⟨[]⟩, [("linux", "imgL"), ("group_foo", "imgG")]⟩
          ⟨"trusty", "foo", "linux"⟩).1 = "imgG" :=
  ⟨((select_tier_precedence
        ⟨⟨[]⟩, [("group_foo", "imgG"), ("dist_trusty", "imgD"), ("os_linux", "imgL")]⟩
        ⟨"trusty", "foo", "linux"⟩ (by decide) (by decide) (by decide) (by decide)
        (by decide)).1 "imgD" (by decide)).trans (by decide),
   ((select_tier_precedence ⟨⟨[]⟩, [("linux", "imgL"), ("group_foo", "imgG")]⟩
        ⟨"trusty", "foo", "linux"⟩ (by decide) (by decide) (by decide) (by decide)
        (by decide)).2 "imgG" (by decide) (by decide) (by decide)).trans (by decide)⟩

/-! ## Keys without an inner `"IMAGE_"` and the hyphen workaround -/

theorem hasPrefix_append (r : String) : HasPrefix ("IMAGE_" ++ r) "IMAGE_" = true := by
  unfold HasPrefix
  rw [List.isPrefixOf_iff_prefix, String.data_append]
  exact List.prefix_append _ _

theorem specStripPrefix_append (r : String) : specStripPrefix ("IMAGE_" ++ r) "IMAGE_" = r := by
  apply String.ext
  simp only [specStripPrefix, hasPrefix_append, if_true]
  rw [String.data_append]
  exact List.drop_left _ _

theorem Replace_all_of_no_inner (r : String) (hr : Contains r "IMAGE_" = false) :
    Replace ("IMAGE_" ++ r) "IMAGE_" "" (-1) = r := by
  rw [Replace_all_of_hasPrefix _ (hasPrefix_append r), specStripPrefix_append]
  apply String.ext
  rw [Replace_all_data]
  exact replaceL_of_not_infix _ _ _ _ ((containsL_eq_false_iff _ _).mp hr)

/-- C15: for every config key `"IMAGE_" ++ r` where `r` contains no
`"IMAGE_"`, removing every `"IMAGE_"` (what the code does) gives `r`, which is
what stripping the prefix gives, and `buildLookup` inserts the pair under the
key `modifyBuildGroup(lowercase(r))`. -/
theorem buildLookup_key_of_no_inner (u : Char → Char) (before : List (String × String))
    (r value : String) (l : Table) (hr : Contains r "IMAGE_" = false) :
    Replace ("IMAGE_" ++ r) "IMAGE_" "" (-1) = specStripPrefix ("IMAGE_" ++ r) "IMAGE_"
      ∧ specStripPrefix ("IMAGE_" ++ r) "IMAGE_" = r
      ∧ (EnvSelector.buildLookup u ⟨⟨before ++ [("IMAGE_" ++ r, value)]⟩, l⟩).lookup
          = Table.set (EnvSelector.buildLookup u ⟨⟨before⟩, l⟩).lookup
              (modifyBuildGroup (ToLower u r)) value := by
  refine ⟨?_, specStripPrefix_append r, ?_⟩
  · rw [Replace_all_of_no_inner r hr, specStripPrefix_append]
  · rw [buildLookup_snoc u before _ value l l, if_pos (hasPrefix_append r)]
    unfold lookupKey
    rw [Replace_all_of_no_inner r hr]

/-- Witness of C15: the key `"IMAGE_GROUP_POWER_SMALL"` is stored as
`"group_power-small"`. -/
theorem buildLookup_key_of_no_inner_witness :
    Contains "GROUP_POWER_SMALL" "IMAGE_" = false
      ∧ (EnvSelector.buildLookup id
          ⟨⟨[] ++ [("IMAGE_" ++ "GROUP_POWER_SMALL", "img")]⟩, []⟩).lookup
          = [("group_power-small", "img")] :=
  ⟨by decide,
   (buildLookup_key_of_no_inner id [] "GROUP_POWER_SMALL" "img" [] (by decide)).2.2.trans
      (by decide)⟩

theorem ToLower_append (u : Char → Char) (a b : String) :
    ToLower u (a ++ b) = ToLower u a ++ ToLower u b := by
  apply String.ext
  simp [ToLower, String.data_append]

theorem ToLower_ascii (u u' : Char → Char) (S : String)
    (h : ∀ c ∈ S.data, c.toNat < 128) : ToLower u S = ToLower u' S := by
  apply String.ext
  show S.data.map (toLowerRune u) = S.data.map (toLowerRune u')
  apply List.map_congr_left
  intro c hc
  simp [toLowerRune, h c hc]

theorem lookupKey_group_power (u : Char → Char) (S : String)
    (hno : Contains S "IMAGE_" = false) :
    lookupKey u ("IMAGE_GROUP_POWER_" ++ S) = "group_power-" ++ ToLower u S := by
  have hkey : "IMAGE_GROUP_POWER_" ++ S = "IMAGE_" ++ ("GROUP_POWER_" ++ S) := by
    apply String.ext
    simp [String.data_append]
  have hno' : Contains ("GROUP_POWER_" ++ S) "IMAGE_" = false := by
    unfold Contains at hno ⊢
    rw [String.data_append]
    exact hno
  have hlow : ToLower u "GROUP_POWER_" = "group_power_" := rfl
  unfold lookupKey
  rw [hkey, Replace_all_of_no_inner _ hno', ToLower_append, hlow]
  apply String.ext
  have hfirst : ¬ "group_power_".data <:+: [] ++ "group_power_".data.dropLast :=
    (containsL_eq_false_iff _ _).mp (by decide)
  rw [modifyBuildGroup_data_of_first _ [] (ToLower u S).data
    (by rw [String.data_append]; rfl) hfirst, String.data_append]
  rfl

/-- C16: the hyphen workaround works end to end.  For every value `v` and
every ASCII string `S` without `"IMAGE_"`, the selector built from the source
`[("IMAGE_GROUP_POWER_" ++ S, v)]` returns `v` for
`Params{Group: "power-" ++ lowercase(S)}`; on ASCII the lower-casing of the
request side agrees with the builder's whatever the Unicode tables are. -/
theorem select_power_group (u u' : Char → Char) (S v : String)
    (hascii : ∀ c ∈ S.data, c.toNat < 128) (hno : Contains S "IMAGE_" = false) :
    ((NewEnvSelector u ⟨[("IMAGE_GROUP_POWER_" ++ S, v)]⟩).1.Select
        ⟨"", "power-" ++ ToLower u' S, ""⟩).1 = v := by
  have hpre : HasPrefix ("IMAGE_GROUP_POWER_" ++ S) "IMAGE_" = true := by
    unfold HasPrefix
    rw [String.data_append]
    rfl
  have htable : (NewEnvSelector u ⟨[("IMAGE_GROUP_POWER_" ++ S, v)]⟩).1.lookup
      = [("group_power-" ++ ToLower u S, v)] := by
    show (EnvSelector.buildLookup u ⟨⟨[("IMAGE_GROUP_POWER_" ++ S, v)]⟩, []⟩).lookup = _
    rw [buildLookup_lookup]
    simp only [List.foldl_cons, List.foldl_nil, hpre, if_true, lookupKey_group_power u S hno]
    rfl
  have hgroup : "group_" ++ ("power-" ++ ToLower u' S) = "group_power-" ++ ToLower u S := by
    rw [ToLower_ascii u' u S hascii]
    apply String.ext
    simp [String.data_append]
  have hgne : "power-" ++ ToLower u' S ≠ "" := append_ne_empty _ _ (by decide)
  have hkne : "group_" ++ ("power-" ++ ToLower u' S) ≠ "" := append_ne_empty _ _ (by decide)
  have hscan : selectScan (NewEnvSelector u ⟨[("IMAGE_GROUP_POWER_" ++ S, v)]⟩).1.lookup
      (EnvSelector.buildCandidateKeys (NewEnvSelector u ⟨[("IMAGE_GROUP_POWER_" ++ S, v)]⟩).1
        ⟨"", "power-" ++ ToLower u' S, ""⟩) "default" = v := by
    have hkne' : "group_power-" ++ ToLower u S ≠ "" := append_ne_empty _ _ (by decide)
    rw [candidates_eq, htable]
    simp [hgne, selectScan, hkne, hkne', hgroup, Table.get?]
  rw [select_fst, hscan, htable]
  unfold specResolve
  by_cases hv : "group_power-" ++ ToLower u S = v
  · simp [Table.get?, hv]
  · simp [Table.get?, hv]

/-- Witness of C16: the source `[("IMAGE_GROUP_POWER_SMALL", "imgP")]` and
`Params{Group: "power-small"}` give `"imgP"`. -/
theorem select_power_group_witness :
    (∀ c ∈ "SMALL".data, c.toNat < 128) ∧ Contains "SMALL" "IMAGE_" = false
      ∧ ((NewEnvSelector id ⟨[("IMAGE_GROUP_POWER_" ++ "SMALL", "imgP")]⟩).1.Select
          ⟨"", "power-" ++ ToLower id "SMALL", ""⟩).1 = "imgP" :=
  ⟨by decide, by decide, select_power_group id id "SMALL" "imgP" (by decide) (by decide)⟩

/-! ## Case sensitivity -/

theorem lookupKey_no_upper (u : Char → Char)
    (h1 : ∀ c : Char, 128 ≤ c.toNat → isUpperASCII (u c) = false)
    (k : String) (x : Char) (hx : x ∈ (lookupKey u k).data) : isUpperASCII x = false := by
  cases mem_modifyBuildGroup _ x hx with
  | inl hlow =>
    obtain ⟨c, _, hcx⟩ := List.mem_map.mp hlow
    rw [← hcx]
    exact isUpperASCII_toLowerRune u h1 c
  | inr hgp =>
    have hall : ∀ y ∈ "group_power-".data, isUpperASCII y = false := by decide
    exact hall x hgp

theorem candidate_contains_field (es : EnvSelector) (p : Params) (c : String)
    (hc : c ∈ es.buildCandidateKeys p) :
    c = "" ∨ ∃ f ∈ [p.Dist, p.Group, p.OS], f ≠ "" ∧ ∀ x ∈ f.data, x ∈ c.data := by
  rw [candidates_eq] at hc
  simp only [List.mem_append] at hc
  rcases hc with (((h0 | hA) | hB) | hC) | hE
  · left
    simpa using h0
  · right
    by_cases h : p.Dist ≠ "" ∧ p.Group ≠ ""
    · rw [if_pos h] at hA
      refine ⟨p.Dist, by simp, h.1, ?_⟩
      intro x hx
      simp only [List.mem_cons, List.mem_singleton, List.not_mem_nil, or_false] at hA
      rcases hA with hA | hA <;> rw [hA] <;> simp [String.data_append, hx]
    · rw [if_neg h] at hA
      simp at hA
  · right
    by_cases h : p.Dist ≠ ""
    · rw [if_pos h] at hB
      refine ⟨p.Dist, by simp, h, ?_⟩
      intro x hx
      simp only [List.mem_cons, List.mem_singleton, List.not_mem_nil, or_false] at hB
      rcases hB with hB | hB <;> rw [hB] <;> simp [String.data_append, hx]
    · rw [if_neg h] at hB
      simp at hB
  · right
    by_cases h : p.Group ≠ ""
    · rw [if_pos h] at hC
      refine ⟨p.Group, by simp, h, ?_⟩
      intro x hx
      simp only [List.mem_cons, List.mem_singleton, List.not_mem_nil, or_false] at hC
      rcases hC with hC | hC <;> rw [hC] <;> simp [String.data_append, hx]
    · rw [if_neg h] at hC
      simp at hC
  · right
    by_cases h : p.OS ≠ ""
    · rw [if_pos h] at hE
      refine ⟨p.OS, by simp, h, ?_⟩
      intro x hx
      simp only [List.mem_cons, List.mem_singleton, List.not_mem_nil, or_false] at hE
      rcases hE with hE | hE <;> rw [hE] <;> simp [String.data_append, hx]
    · rw [if_neg h] at hE
      simp at hE

/-- C18: selection is case-sensitive against an all-lowercase table.  Given
that lower-casing a non-ASCII rune never yields an ASCII capital, every key of
the table built by `buildLookup` is free of ASCII upper-case letters, and for
every `Params` in which each non-empty field among `Dist`, `Group`, `OS` holds
at least one ASCII upper-case letter, `Select` over that table takes the
fallback path: `T["default"]` if `"default"` is a key and `"default"`
otherwise. -/
theorem select_case_sensitive (u : Char → Char)
    (h1 : ∀ c : Char, 128 ≤ c.toNat → isUpperASCII (u c) = false) (es : EnvSelector) :
    (∀ k, Table.hasKey (es.buildLookup u).lookup k = true →
        ∀ c ∈ k.data, isUpperASCII c = false)
      ∧ ∀ p : Params,
          (∀ f ∈ [p.Dist, p.Group, p.OS], f ≠ "" → ∃ c ∈ f.data, isUpperASCII c = true) →
            ((es.buildLookup u).Select p).1
              = (match (es.buildLookup u).lookup.get? "default" with
                 | some w => w
                 | none => "default") := by
  have hkeys : ∀ k, Table.hasKey (es.buildLookup u).lookup k = true →
      ∀ c ∈ k.data, isUpperASCII c = false := by
    intro k hk c hc
    rw [buildLookup_lookup] at hk
    cases foldl_keys u k es.c.entries [] hk with
    | inl h0 => simp [Table.hasKey, Table.get?] at h0
    | inr hex =>
      obtain ⟨kv, _, _, hkv⟩ := hex
      rw [hkv] at hc
      exact lookupKey_no_upper u h1 kv.1 c hc
  refine ⟨hkeys, ?_⟩
  intro p hp
  have hno : NoMatch (es.buildLookup u).lookup ((es.buildLookup u).buildCandidateKeys p) := by
    intro c hc
    cases candidate_contains_field (es.buildLookup u) p c hc with
    | inl h0 => exact Or.inl h0
    | inr hf =>
      right
      obtain ⟨f, hfmem, hfne, hsub⟩ := hf
      obtain ⟨x, hx, hup⟩ := hp f hfmem hfne
      cases hget : (es.buildLookup u).lookup.get? c with
      | none => rfl
      | some w =>
        exfalso
        have hkey : Table.hasKey (es.buildLookup u).lookup c = true := by
          simp [Table.hasKey, hget]
        have := hkeys c hkey x (hsub x hx)
        rw [hup] at this
        exact Bool.noConfusion this
  rw [select_fst, selectScan_of_noMatch _ _ _ hno]
  rfl

/-- Witness of C18: the source `[("IMAGE_DIST_TRUSTY", "imgT"),
("IMAGE_DEFAULT", "imgD")]` yields the keys `"dist_trusty"` and `"default"`;
`Params{Dist: "Trusty"}` matches neither candidate and the selection is the
value stored for `"default"`. -/
theorem select_case_sensitive_witness :
    (∀ f ∈ ["Trusty", "", ""], f ≠ "" → ∃ c ∈ f.data, isUpperASCII c = true)
      ∧ ((EnvSelector.buildLookup id
            ⟨⟨[("IMAGE_DIST_TRUSTY", "imgT"), ("IMAGE_DEFAULT", "imgD")]⟩, []⟩).Select
          ⟨"Trusty", "", ""⟩).1 = "imgD" :=
  ⟨by decide,
   ((select_case_sensitive id
      (fun c hc => by
        simp only [isUpperASCII, id, Bool.and_eq_false_iff, decide_eq_false_iff_not]
        omega)
      ⟨⟨[("IMAGE_DIST_TRUSTY", "imgT"), ("IMAGE_DEFAULT", "imgD")]⟩, []⟩).2
      ⟨"Trusty", "", ""⟩ (by decide)).trans (by decide)⟩

end Image
